import Mathlib

set_option maxHeartbeats 1000000

/-!
Shallow embedding of the `Vault` contract (src/app/contract/Vault.sol) of the
vaultquest repository, together with proofs about its operations.

Conventions of the embedding:
* `uint256` values are `Nat`; Solidity 0.8 checked arithmetic is modelled by
  `uadd`/`usub`/`umul`, which fail with `VErr.overflow` outside `[0, 2^256)`.
* Addresses are `Nat`.  A vault's `token` field is `Option Nat`:
  `none` models `address(0)` (native currency), `some t` an ERC20 token.
* Reverting (`require` failure or an aborted external call) is modelled by
  `Except.error`: an operation that returns `Except.error e` leaves the
  pre-state unchanged, exactly like an EVM revert.
* External asset transfers are an environment oracle `xfer : Nat → XferResult`
  giving, per target address, the outcome of the one transfer call made to it
  during the operation: the call may succeed, return `false` without
  reverting, or revert.
* `block.timestamp` is an explicit `now : Nat` argument; the pseudo-random
  seed of winner selection (`keccak(prevrandao, id, timestamp)`) is an
  explicit `seed : Nat` argument; the contract's asset balance checked by
  `withdraw` is an explicit `bal : Nat` argument.
* The contract-level mapping `claimableAmounts[vaultId][addr]` is stored here
  as the per-vault field `claimableAmounts : Nat → Nat`, and the per-vault
  struct mapping `deposits` as `deposits : Nat → Nat`.
-/

namespace VaultSim

/-- One more than the largest `uint256` value. -/
def UMAX : Nat := 2 ^ 256

/-- Failure outcomes, one per `require` message / abort cause in Vault.sol. -/
inductive VErr where
  | vaultInactive
  | depositWindowClosed
  | zeroAmount
  | unexpectedPayment
  | transferFailed
  | revertedTransfer
  | noDeposit
  | noDepositors
  | winnerAlreadySelected
  | insufficientFunds
  | notYetSettled
  | notAdmin
  | invalidParameter
  | overflow
  deriving DecidableEq, Repr

/-- Outcome of one external asset-transfer call. -/
inductive XferResult where
  | success
  | returnFalse
  | revert
  deriving DecidableEq, Repr

/-- Checked `uint256` addition (Solidity 0.8 reverts on overflow). -/
def uadd (x y : Nat) : Except VErr Nat :=
  if x + y < UMAX then .ok (x + y) else .error .overflow

/-- Checked `uint256` subtraction (reverts on underflow). -/
def usub (x y : Nat) : Except VErr Nat :=
  if y ≤ x then .ok (x - y) else .error .overflow

/-- Checked `uint256` multiplication (reverts on overflow). -/
def umul (x y : Nat) : Except VErr Nat :=
  if x * y < UMAX then .ok (x * y) else .error .overflow

/-- The Solidity literal `365 days`, in seconds. -/
def secondsPerYear : Nat := 365 * 86400

/-- Pointwise update of a `mapping(address => uint256)`. -/
def upd (f : Nat → Nat) (a v : Nat) : Nat → Nat := fun x => if x = a then v else f x

/-- The `VaultInfo` struct of Vault.sol (plus its slice of the contract-level
`claimableAmounts` mapping). -/
structure VaultInfo where
  name : String
  token : Option Nat
  totalDeposits : Nat
  creationTime : Nat
  duration : Nat
  interestRate : Nat
  active : Bool
  winnerSelected : Bool
  winner : Nat
  depositors : List Nat
  deposits : Nat → Nat
  claimableAmounts : Nat → Nat

/-- Per-depositor simple interest, as computed (with checked arithmetic) by
`_calculateTotalInterest` and `deleteVault`:
`(p * r * d) / (10000 * 365 days)`. -/
def interestOf (p r d : Nat) : Except VErr Nat :=
  (umul p r).bind fun x =>
  (umul x d).bind fun y =>
  .ok (y / (10000 * secondsPerYear))

/-- The interest formula as the specification states it: exact floor division
`p * r * d / (10000 * secondsPerYear)` over unbounded integers. -/
def specInterest (p r d : Nat) : Nat := p * r * d / (10000 * secondsPerYear)

/-- The accumulation loop of `_calculateTotalInterest`. -/
def calcInterestLoop (v : VaultInfo) : List Nat → Nat → Except VErr Nat
  | [], acc => .ok acc
  | d :: rest, acc =>
    (interestOf (v.deposits d) v.interestRate v.duration).bind fun i =>
    (uadd acc i).bind fun acc2 =>
    calcInterestLoop v rest acc2

/-- `_calculateTotalInterest`: sum of per-depositor interest over `depositors`. -/
def calcTotalInterest (v : VaultInfo) : Except VErr Nat :=
  calcInterestLoop v v.depositors 0

/-- Index of the first occurrence of `a`, mirroring the search loop of
`_removeDepositor`. -/
def firstIndexOf (a : Nat) : List Nat → Option Nat
  | [] => none
  | x :: xs => if x = a then some 0 else (firstIndexOf a xs).map (· + 1)

/-- `_removeDepositor`: overwrite the first occurrence of `a` with the last
element, then pop the last element; no-op when `a` is absent. -/
def removeDepositor (l : List Nat) (a : Nat) : List Nat :=
  match firstIndexOf a l with
  | none => l
  | some i => (l.set i (l.getLast?.getD 0)).dropLast

/-- `createVault`: admin-only, requires a positive interest rate, records the
creation timestamp and activates the vault. -/
def createVault (nm : String) (token : Option Nat) (duration rate : Nat)
    (now sender admin : Nat) : Except VErr VaultInfo :=
  if sender ≠ admin then .error .notAdmin
  else if rate = 0 then .error .invalidParameter
  else .ok
    { name := nm, token := token, totalDeposits := 0, creationTime := now,
      duration := duration, interestRate := rate, active := true,
      winnerSelected := false, winner := 0, depositors := [],
      deposits := fun _ => 0, claimableAmounts := fun _ => 0 }

/-- The branch of `deposit` that determines the credited amount.  For a native
vault the attached value is used and `_amount` is ignored; for a token vault
the contract calls `IERC20.transferFrom` WITHOUT checking its boolean result
(only a revert of the token aborts the deposit). -/
def depositAmountOf (v : VaultInfo) (sender amount msgValue : Nat)
    (xfer : Nat → XferResult) : Except VErr Nat :=
  match v.token with
  | none => if msgValue = 0 then .error .zeroAmount else .ok msgValue
  | some _ =>
    if amount = 0 then .error .zeroAmount
    else if ¬ msgValue = 0 then .error .unexpectedPayment
    else match xfer sender with
      | .revert => .error .revertedTransfer
      | _ => .ok amount

/-- `deposit(_vaultId, _amount)` with attached value `msgValue`.  Returns the
new vault state and the credited amount. -/
def deposit (v : VaultInfo) (now sender amount msgValue : Nat)
    (xfer : Nat → XferResult) : Except VErr (VaultInfo × Nat) :=
  if v.active = false then .error .vaultInactive
  else if ¬ now < v.creationTime + v.duration then .error .depositWindowClosed
  else
    (depositAmountOf v sender amount msgValue xfer).bind fun depositAmount =>
    (uadd (v.deposits sender) depositAmount).bind fun nd =>
    (uadd v.totalDeposits depositAmount).bind fun nt =>
    .ok ({ v with
            depositors :=
              if v.deposits sender = 0 then v.depositors ++ [sender] else v.depositors
            deposits := upd v.deposits sender nd
            totalDeposits := nt }, depositAmount)

/-- The claimable-amount loop of `_selectWinner`: the winner's entry is
`principal + totalInterest` (checked add), everyone else's is `principal`. -/
def setClaimables (v : VaultInfo) (w ti : Nat) :
    List Nat → (Nat → Nat) → Except VErr (Nat → Nat)
  | [], cl => .ok cl
  | d :: rest, cl =>
    if d = w then
      (uadd (v.deposits d) ti).bind fun amt =>
      setClaimables v w ti rest (upd cl d amt)
    else setClaimables v w ti rest (upd cl d (v.deposits d))

/-- `_selectWinner`: requires no winner yet and a non-empty depositor list;
picks `depositors[seed % length]`, marks the winner as selected, computes the
total interest and fills the claimable table. -/
def selectWinner (v : VaultInfo) (seed : Nat) : Except VErr VaultInfo :=
  if v.winnerSelected = true then .error .winnerAlreadySelected
  else if v.depositors.length = 0 then .error .noDepositors
  else
    let w := v.depositors.getD (seed % v.depositors.length) 0
    let v1 := { v with winner := w, winnerSelected := true }
    (calcTotalInterest v1).bind fun ti =>
    (setClaimables v1 w ti v1.depositors v1.claimableAmounts).bind fun cl =>
    .ok { v1 with claimableAmounts := cl }

/-- Line 192-196 of `withdraw`: the amount to claim is the claimable entry
when non-zero, else the raw principal. -/
def claimOf (v1 : VaultInfo) (sender : Nat) : Nat :=
  if v1.claimableAmounts sender = 0 then v1.deposits sender
  else v1.claimableAmounts sender

/-- Lines 211-216 of `withdraw`: zero the caller's principal, subtract it from
`totalDeposits` (checked, result `nt`), reset the claimable entry and remove
the caller from `depositors`. -/
def clearEntry (v1 : VaultInfo) (sender nt : Nat) : VaultInfo :=
  { v1 with
    deposits := upd v1.deposits sender 0
    totalDeposits := nt
    claimableAmounts := upd v1.claimableAmounts sender 0
    depositors := removeDepositor v1.depositors sender }

/-- Lines 191-226 of `withdraw`: determine the claimable amount, check the
contract balance, update all state BEFORE the external transfer, and perform
the transfer. -/
def withdrawSettle (v1 : VaultInfo) (sender bal : Nat)
    (xfer : Nat → XferResult) : Except VErr (VaultInfo × Nat) :=
  if bal < claimOf v1 sender then .error .insufficientFunds
  else
    (usub v1.totalDeposits (v1.deposits sender)).bind fun nt =>
    match v1.token with
    | none =>
      if xfer sender = XferResult.success then .ok (clearEntry v1 sender nt, claimOf v1 sender)
      else .error .transferFailed
    | some _ =>
      match xfer sender with
      | .success => .ok (clearEntry v1 sender nt, claimOf v1 sender)
      | .returnFalse => .error .transferFailed
      | .revert => .error .revertedTransfer

/-- `withdraw(_vaultId)`.  `bal` is the contract's on-hand balance of the
vault's asset; `seed` feeds the lazy winner selection.  Returns the new state
and the amount paid out. -/
def withdraw (v : VaultInfo) (now sender bal seed : Nat)
    (xfer : Nat → XferResult) : Except VErr (VaultInfo × Nat) :=
  if v.active = false then .error .vaultInactive
  else if v.deposits sender = 0 then .error .noDeposit
  else
    (if v.creationTime + v.duration ≤ now ∧ v.winnerSelected = false
     then selectWinner v seed else .ok v).bind fun v1 =>
    withdrawSettle v1 sender bal xfer

/-- The payout loop of `deleteVault`: per positive-principal depositor, zero
the principal, add matured interest, and transfer.  A failed native transfer
reverts (`require(success)`), but the boolean result of an ERC20 `transfer`
is NOT checked.  Returns the final state and the transfers made. -/
def deleteLoop (now : Nat) (xfer : Nat → XferResult) :
    List Nat → VaultInfo → Except VErr (VaultInfo × List (Nat × Nat))
  | [], v => .ok (v, [])
  | d :: rest, v =>
    if v.deposits d = 0 then deleteLoop now xfer rest v
    else
      (if v.creationTime + v.duration ≤ now
       then interestOf (v.deposits d) v.interestRate v.duration
       else .ok 0).bind fun interest =>
      (uadd (v.deposits d) interest).bind fun total =>
      (match v.token with
       | none =>
         if xfer d = XferResult.success then Except.ok ()
         else Except.error VErr.transferFailed
       | some _ =>
         match xfer d with
         | .revert => Except.error VErr.revertedTransfer
         | _ => Except.ok ()).bind fun _ =>
      (deleteLoop now xfer rest { v with deposits := upd v.deposits d 0 }).bind fun r =>
      .ok (r.1, (d, total) :: r.2)

/-- `deleteVault(_vaultId)`: admin-only, requires an active vault, deactivates
it and pays out every positive-principal depositor.  Note: it neither updates
`totalDeposits` nor clears `depositors`. -/
def deleteVault (v : VaultInfo) (now sender admin : Nat)
    (xfer : Nat → XferResult) : Except VErr (VaultInfo × List (Nat × Nat)) :=
  if sender ≠ admin then .error .notAdmin
  else if v.active = false then .error .vaultInactive
  else deleteLoop now xfer v.depositors { v with active := false }

/-- `getWinnerInfo`: requires an ACTIVE vault and a selected winner, then
returns the winner and the total interest. -/
def getWinnerInfo (v : VaultInfo) : Except VErr (Nat × Nat) :=
  if v.active = false then .error .vaultInactive
  else if v.winnerSelected = false then .error .notYetSettled
  else (calcTotalInterest v).bind fun ti => .ok (v.winner, ti)

/-- `hasWinner`. -/
def hasWinner (v : VaultInfo) : Bool := v.winnerSelected

/-- Sum of the recorded principals of the listed depositors. -/
def sumDeposits (v : VaultInfo) : Nat := (v.depositors.map v.deposits).sum

/-- The accounting invariant: `totalDeposits` equals the sum of the listed
depositors' principals. -/
def Inv1 (v : VaultInfo) : Prop := v.totalDeposits = sumDeposits v

/-- The depositor-list invariant: no duplicates, and the list contains
exactly the addresses with positive principal. -/
def Inv3 (v : VaultInfo) : Prop :=
  v.depositors.Nodup ∧ ∀ a, a ∈ v.depositors ↔ 0 < v.deposits a

/-- Well-formedness: both state invariants. -/
def WF (v : VaultInfo) : Prop := Inv1 v ∧ Inv3 v

/-- One mutating call on a vault, with its environment. -/
inductive Op where
  | deposit (now sender amount msgValue : Nat) (xfer : Nat → XferResult)
  | withdraw (now sender bal seed : Nat) (xfer : Nat → XferResult)
  | deleteVault (now sender : Nat) (xfer : Nat → XferResult)

/-- The `block.timestamp` of an operation. -/
def opTime : Op → Nat
  | .deposit now _ _ _ _ => now
  | .withdraw now _ _ _ _ => now
  | .deleteVault now _ _ => now

/-- State transition of one mutating call (outputs projected away). -/
def stepV (admin : Nat) (op : Op) (v : VaultInfo) : Except VErr VaultInfo :=
  match op with
  | .deposit now sender amount msgValue xfer =>
    (deposit v now sender amount msgValue xfer).map Prod.fst
  | .withdraw now sender bal seed xfer =>
    (withdraw v now sender bal seed xfer).map Prod.fst
  | .deleteVault now sender xfer =>
    (deleteVault v now sender admin xfer).map Prod.fst

/-- Vault states reachable from `createVault` by mutating calls with
non-decreasing block timestamps; the `Nat` component is the timestamp of the
last call. -/
inductive Reachable (admin : Nat) : VaultInfo → Nat → Prop where
  | create (nm : String) (token : Option Nat) (duration rate now sender : Nat)
      (v : VaultInfo) (h : createVault nm token duration rate now sender admin = .ok v) :
      Reachable admin v now
  | step (v : VaultInfo) (t : Nat) (op : Op) (v' : VaultInfo)
      (hr : Reachable admin v t) (ht : t ≤ opTime op)
      (h : stepV admin op v = .ok v') : Reachable admin v' (opTime op)

/-- Timestamp invariant: a selected winner or a non-zero claimable entry can
only exist once the vault has matured. -/
def TimeInv (v : VaultInfo) (t : Nat) : Prop :=
  (v.winnerSelected = true → v.creationTime + v.duration ≤ t) ∧
  (∀ a, v.claimableAmounts a ≠ 0 → v.creationTime + v.duration ≤ t)

/-- Transfer oracle where every call succeeds. -/
def xfOK : Nat → XferResult := fun _ => XferResult.success

/-- Transfer oracle where every call returns `false` without reverting. -/
def xfFalse : Nat → XferResult := fun _ => XferResult.returnFalse

/-- A freshly created native-currency demo vault (creation time 0,
duration 100 seconds, rate 500 bps, admin address 9). -/
def demoV0 : VaultInfo :=
  { name := "demo", token := none, totalDeposits := 0, creationTime := 0,
    duration := 100, interestRate := 500, active := true,
    winnerSelected := false, winner := 0, depositors := [],
    deposits := fun _ => 0, claimableAmounts := fun _ => 0 }

/-- `demoV0` after address 5 deposits 100 wei at time 1. -/
def demoV1 : VaultInfo :=
  { demoV0 with
    totalDeposits := 100
    depositors := [5]
    deposits := upd demoV0.deposits 5 100 }

/-- `demoV1` after address 5 withdraws at time 2 (before maturity). -/
def demoV2 : VaultInfo :=
  { demoV1 with
    deposits := upd demoV1.deposits 5 0
    totalDeposits := 0
    claimableAmounts := upd demoV1.claimableAmounts 5 0
    depositors := [] }

/-- `demoV1` with a winner already selected (used for immutability checks). -/
def vW : VaultInfo := { demoV1 with winnerSelected := true, winner := 5 }

/-- `vW` after a further deposit of 50 wei by address 6 at time 1. -/
def vW' : VaultInfo :=
  { vW with
    totalDeposits := 150
    depositors := [5, 6]
    deposits := upd vW.deposits 6 50 }

/-- An inactive vault with no winner selected (for the winner-info query). -/
def v8 : VaultInfo := { demoV0 with active := false }

/-- `demoV1` after the admin force-deletes it at time 200 (past maturity). -/
def demoDeadV : VaultInfo :=
  { demoV1 with
    active := false
    deposits := upd demoV1.deposits 5 0 }

/-- A freshly created ERC20 demo vault for token address 7. -/
def demoTV : VaultInfo := { demoV0 with token := some 7 }

/-- `demoTV` after address 5 "deposits" 100 tokens whose `transferFrom`
returned `false`. -/
def demoTV1 : VaultInfo :=
  { demoTV with
    totalDeposits := 100
    depositors := [5]
    deposits := upd demoTV.deposits 5 100 }

/-- A native demo vault whose duration is exactly one year. -/
def demoBV0 : VaultInfo := { demoV0 with duration := secondsPerYear }

/-- `demoBV0` after address 5 deposits 10^12 wei at time 1. -/
def demoBV1 : VaultInfo :=
  { demoBV0 with
    totalDeposits := 1000000000000
    depositors := [5]
    deposits := upd demoBV0.deposits 5 1000000000000 }

/-- `demoBV1` after the admin force-deletes it at maturity. -/
def demoBDead : VaultInfo :=
  { demoBV1 with
    active := false
    deposits := upd demoBV1.deposits 5 0 }

end VaultSim

namespace VaultSim

/-! ### Generic helper lemmas -/

@[simp] theorem okBind {α β : Type} (a : α) (f : α → Except VErr β) :
    (Except.ok a : Except VErr α).bind f = f a := rfl

@[simp] theorem errBind {α β : Type} (e : VErr) (f : α → Except VErr β) :
    (Except.error e : Except VErr α).bind f = .error e := rfl

@[simp] theorem upd_same (f : Nat → Nat) (a v : Nat) : upd f a v a = v := by
  simp [upd]

theorem upd_ne (f : Nat → Nat) {a b : Nat} (v : Nat) (h : b ≠ a) :
    upd f a v b = f b := by simp [upd, h]

theorem uadd_ok {x y z : Nat} : uadd x y = .ok z ↔ x + y < UMAX ∧ z = x + y := by
  unfold uadd; split <;> simp_all [eq_comm]

theorem usub_ok {x y z : Nat} : usub x y = .ok z ↔ y ≤ x ∧ z = x - y := by
  unfold usub; split <;> simp_all [eq_comm]

theorem umul_ok {x y z : Nat} : umul x y = .ok z ↔ x * y < UMAX ∧ z = x * y := by
  unfold umul; split <;> simp_all [eq_comm]

theorem interestOf_ok {p r d i : Nat} :
    interestOf p r d = .ok i ↔ p * r < UMAX ∧ p * r * d < UMAX ∧ i = specInterest p r d := by
  unfold interestOf specInterest
  cases h1 : umul p r with
  | error e =>
    simp [h1]
    rintro hpr - -
    exact absurd (umul_ok.2 ⟨hpr, rfl⟩) (by simp [h1])
  | ok x =>
    obtain ⟨hpr, rfl⟩ := umul_ok.1 h1
    cases h2 : umul (p * r) d with
    | error e =>
      simp [h1, h2, hpr]
      rintro hprd -
      exact absurd (umul_ok.2 ⟨hprd, rfl⟩) (by simp [h2])
    | ok y =>
      obtain ⟨hprd, rfl⟩ := umul_ok.1 h2
      simp [h1, h2, hpr, hprd, eq_comm]

/-! ### Inversion lemmas for the operations -/

theorem depositAmountOf_ok {v : VaultInfo} {sender amount msgValue : Nat}
    {xfer : Nat → XferResult} {c : Nat}
    (h : depositAmountOf v sender amount msgValue xfer = .ok c) :
    0 < c ∧ (v.token = none → c = msgValue) := by
  cases htok : v.token with
  | none =>
    simp only [depositAmountOf, htok] at h
    split at h
    · exact absurd h (by simp)
    · next hne =>
      simp only [Except.ok.injEq] at h
      subst h
      exact ⟨Nat.pos_of_ne_zero hne, fun _ => rfl⟩
  | some t =>
    simp only [depositAmountOf, htok] at h
    split at h
    · exact absurd h (by simp)
    · next hamt =>
      split at h
      · exact absurd h (by simp)
      · split at h
        · exact absurd h (by simp)
        all_goals
          simp only [Except.ok.injEq] at h
          subst h
          exact ⟨Nat.pos_of_ne_zero hamt, fun hn => by simp [htok] at hn⟩

theorem deposit_ok_inv {v : VaultInfo} {now sender amount msgValue : Nat}
    {xfer : Nat → XferResult} {v' : VaultInfo} {credited : Nat}
    (h : deposit v now sender amount msgValue xfer = .ok (v', credited)) :
    v.active = true ∧ now < v.creationTime + v.duration ∧ 0 < credited ∧
    (v.token = none → credited = msgValue) ∧
    v.deposits sender + credited < UMAX ∧ v.totalDeposits + credited < UMAX ∧
    v' = { v with
            depositors :=
              if v.deposits sender = 0 then v.depositors ++ [sender] else v.depositors
            deposits := upd v.deposits sender (v.deposits sender + credited)
            totalDeposits := v.totalDeposits + credited } := by
  unfold deposit at h
  split at h
  · exact absurd h (by simp)
  · split at h
    · exact absurd h (by simp)
    · cases hda : depositAmountOf v sender amount msgValue xfer with
      | error e => rw [hda] at h; exact absurd h (by simp)
      | ok c =>
        rw [hda] at h
        simp only [okBind] at h
        obtain ⟨hpos, hnat⟩ := depositAmountOf_ok hda
        cases h1 : uadd (v.deposits sender) c with
        | error e => rw [h1] at h; exact absurd h (by simp)
        | ok nd =>
          rw [h1] at h
          simp only [okBind] at h
          obtain ⟨hlt1, rfl⟩ := uadd_ok.1 h1
          cases h2 : uadd v.totalDeposits c with
          | error e => rw [h2] at h; exact absurd h (by simp)
          | ok nt =>
            rw [h2] at h
            simp only [okBind, Except.ok.injEq, Prod.mk.injEq] at h
            obtain ⟨hlt2, rfl⟩ := uadd_ok.1 h2
            obtain ⟨hv, hc⟩ := h
            subst hc
            refine ⟨by simp_all, by simp_all, hpos, hnat, hlt1, hlt2, hv.symm⟩


theorem selectWinner_ok_inv {v : VaultInfo} {seed : Nat} {v1 : VaultInfo}
    (h : selectWinner v seed = .ok v1) :
    v.winnerSelected = false ∧ v.depositors ≠ [] ∧
    ∃ cl, v1 = { v with
      winner := v.depositors.getD (seed % v.depositors.length) 0
      winnerSelected := true
      claimableAmounts := cl } := by
  unfold selectWinner at h
  split at h
  · exact absurd h (by simp)
  · next hws =>
    split at h
    · exact absurd h (by simp)
    · next hlen =>
      refine ⟨by simpa using hws, fun hnil => hlen (by simp [hnil]), ?_⟩
      simp only at h
      cases h1 : calcTotalInterest
          { v with
            winner := v.depositors.getD (seed % v.depositors.length) 0
            winnerSelected := true } with
      | error e => rw [h1] at h; exact absurd h (by simp)
      | ok ti =>
        rw [h1] at h
        simp only [okBind] at h
        cases h2 : setClaimables
            { v with
              winner := v.depositors.getD (seed % v.depositors.length) 0
              winnerSelected := true }
            (v.depositors.getD (seed % v.depositors.length) 0) ti v.depositors
            v.claimableAmounts with
        | error e => rw [h2] at h; exact absurd h (by simp)
        | ok cl =>
          rw [h2] at h
          simp only [okBind, Except.ok.injEq] at h
          exact ⟨cl, h.symm⟩

theorem withdrawSettle_ok_inv {v1 : VaultInfo} {sender bal : Nat}
    {xfer : Nat → XferResult} {v' : VaultInfo} {paid : Nat}
    (h : withdrawSettle v1 sender bal xfer = .ok (v', paid)) :
    paid = claimOf v1 sender ∧ ¬ bal < paid ∧
    v1.deposits sender ≤ v1.totalDeposits ∧
    v' = clearEntry v1 sender (v1.totalDeposits - v1.deposits sender) := by
  unfold withdrawSettle at h
  by_cases hbal : bal < claimOf v1 sender
  · rw [if_pos hbal] at h
    exact absurd h (by simp)
  · rw [if_neg hbal] at h
    cases hsub : usub v1.totalDeposits (v1.deposits sender) with
    | error e => rw [hsub] at h; exact absurd h (by simp)
    | ok nt =>
      rw [hsub] at h
      simp only [okBind] at h
      obtain ⟨hle, rfl⟩ := usub_ok.1 hsub
      cases htok : v1.token with
      | none =>
        simp only [htok] at h
        by_cases hx : xfer sender = XferResult.success
        · rw [if_pos hx] at h
          simp only [Except.ok.injEq, Prod.mk.injEq] at h
          exact ⟨h.2.symm, h.2 ▸ hbal, hle, h.1.symm⟩
        · rw [if_neg hx] at h
          exact absurd h (by simp)
      | some t =>
        simp only [htok] at h
        cases hx : xfer sender with
        | success =>
          simp only [hx] at h
          simp only [Except.ok.injEq, Prod.mk.injEq] at h
          exact ⟨h.2.symm, h.2 ▸ hbal, hle, h.1.symm⟩
        | returnFalse => simp only [hx] at h; exact absurd h (by simp)
        | revert => simp only [hx] at h; exact absurd h (by simp)

theorem withdraw_ok_inv {v : VaultInfo} {now sender bal seed : Nat}
    {xfer : Nat → XferResult} {v' : VaultInfo} {paid : Nat}
    (h : withdraw v now sender bal seed xfer = .ok (v', paid)) :
    v.active = true ∧ v.deposits sender ≠ 0 ∧
    ∃ v1,
      ((v.creationTime + v.duration ≤ now ∧ v.winnerSelected = false ∧
          selectWinner v seed = .ok v1) ∨
       (¬ (v.creationTime + v.duration ≤ now ∧ v.winnerSelected = false) ∧ v1 = v)) ∧
      paid = claimOf v1 sender ∧ ¬ bal < paid ∧
      v1.deposits sender ≤ v1.totalDeposits ∧
      v' = clearEntry v1 sender (v1.totalDeposits - v1.deposits sender) := by
  unfold withdraw at h
  split at h
  · exact absurd h (by simp)
  · next hact =>
    split at h
    · exact absurd h (by simp)
    · next hdep =>
      refine ⟨by simpa using hact, hdep, ?_⟩
      split at h
      · next hcond =>
        cases hsw : selectWinner v seed with
        | error e => rw [hsw] at h; exact absurd h (by simp)
        | ok v1 =>
          rw [hsw] at h
          simp only [okBind] at h
          obtain ⟨hp, hb, hle, hv⟩ := withdrawSettle_ok_inv h
          exact ⟨v1, Or.inl ⟨hcond.1, hcond.2, rfl⟩, hp, hb, hle, hv⟩
      · next hcond =>
        simp only [okBind] at h
        obtain ⟨hp, hb, hle, hv⟩ := withdrawSettle_ok_inv h
        exact ⟨v, Or.inr ⟨hcond, rfl⟩, hp, hb, hle, hv⟩

theorem createVault_ok_inv {nm : String} {token : Option Nat}
    {duration rate now sender admin : Nat} {v : VaultInfo}
    (h : createVault nm token duration rate now sender admin = .ok v) :
    sender = admin ∧ rate ≠ 0 ∧
    v = { name := nm, token := token, totalDeposits := 0, creationTime := now,
          duration := duration, interestRate := rate, active := true,
          winnerSelected := false, winner := 0, depositors := [],
          deposits := fun _ => 0, claimableAmounts := fun _ => 0 } := by
  unfold createVault at h
  split at h
  · exact absurd h (by simp)
  · next hs =>
    split at h
    · exact absurd h (by simp)
    · next hr =>
      simp only [Except.ok.injEq] at h
      exact ⟨by simpa using hs, hr, h.symm⟩

theorem deleteVault_ok_inv {v : VaultInfo} {now sender admin : Nat}
    {xfer : Nat → XferResult} {v' : VaultInfo} {pays : List (Nat × Nat)}
    (h : deleteVault v now sender admin xfer = .ok (v', pays)) :
    sender = admin ∧ v.active = true ∧
    deleteLoop now xfer v.depositors { v with active := false } = .ok (v', pays) := by
  unfold deleteVault at h
  split at h
  · exact absurd h (by simp)
  · next hs =>
    split at h
    · exact absurd h (by simp)
    · next ha => exact ⟨by simpa using hs, by simpa using ha, h⟩

theorem deleteLoop_ok_fields {now : Nat} {xfer : Nat → XferResult}
    (l : List Nat) (v vf : VaultInfo) (pays : List (Nat × Nat))
    (h : deleteLoop now xfer l v = .ok (vf, pays)) :
    vf.name = v.name ∧ vf.token = v.token ∧ vf.totalDeposits = v.totalDeposits ∧
    vf.creationTime = v.creationTime ∧ vf.duration = v.duration ∧
    vf.interestRate = v.interestRate ∧ vf.active = v.active ∧
    vf.winnerSelected = v.winnerSelected ∧ vf.winner = v.winner ∧
    vf.depositors = v.depositors ∧ vf.claimableAmounts = v.claimableAmounts := by
  induction l generalizing v vf pays with
  | nil =>
    simp only [deleteLoop, Except.ok.injEq, Prod.mk.injEq] at h
    rw [← h.1]
    exact ⟨rfl, rfl, rfl, rfl, rfl, rfl, rfl, rfl, rfl, rfl, rfl⟩
  | cons d rest ih =>
    rw [deleteLoop] at h
    split at h
    · exact ih _ _ _ h
    · cases hio : (if v.creationTime + v.duration ≤ now
          then interestOf (v.deposits d) v.interestRate v.duration
          else Except.ok 0) with
      | error e => rw [hio] at h; exact absurd h (by simp)
      | ok interest =>
        rw [hio] at h
        simp only [okBind] at h
        cases hta : uadd (v.deposits d) interest with
        | error e => rw [hta] at h; exact absurd h (by simp)
        | ok total =>
          rw [hta] at h
          simp only [okBind] at h
          cases hxf : (match v.token with
            | none =>
              if xfer d = XferResult.success then Except.ok ()
              else Except.error VErr.transferFailed
            | some _ =>
              match xfer d with
              | XferResult.revert => Except.error VErr.revertedTransfer
              | _ => Except.ok ()) with
          | error e => rw [hxf] at h; exact absurd h (by simp)
          | ok u =>
            rw [hxf] at h
            simp only [okBind] at h
            cases hrec : deleteLoop now xfer rest { v with deposits := upd v.deposits d 0 } with
            | error e => rw [hrec] at h; exact absurd h (by simp)
            | ok r =>
              obtain ⟨vf1, pays1⟩ := r
              rw [hrec] at h
              simp only [okBind, Except.ok.injEq, Prod.mk.injEq] at h
              obtain ⟨hvf, hpays⟩ := h
              subst hvf
              have := ih _ _ _ hrec
              simpa using this

theorem deleteLoop_cons_inv {now : Nat} {xfer : Nat → XferResult} {d : Nat}
    {rest : List Nat} {v vf : VaultInfo} {pays : List (Nat × Nat)}
    (h : deleteLoop now xfer (d :: rest) v = .ok (vf, pays))
    (hnz : ¬ v.deposits d = 0) :
    ∃ interest pays1,
      (v.creationTime + v.duration ≤ now →
        interestOf (v.deposits d) v.interestRate v.duration = .ok interest) ∧
      (¬ v.creationTime + v.duration ≤ now → interest = 0) ∧
      v.deposits d + interest < UMAX ∧
      deleteLoop now xfer rest { v with deposits := upd v.deposits d 0 } = .ok (vf, pays1) ∧
      pays = (d, v.deposits d + interest) :: pays1 := by
  rw [deleteLoop, if_neg hnz] at h
  by_cases hmat : v.creationTime + v.duration ≤ now
  · rw [if_pos hmat] at h
    cases hio : interestOf (v.deposits d) v.interestRate v.duration with
    | error e => rw [hio] at h; exact absurd h (by simp)
    | ok i =>
      rw [hio] at h
      simp only [okBind] at h
      cases hta : uadd (v.deposits d) i with
      | error e => rw [hta] at h; exact absurd h (by simp)
      | ok total =>
        rw [hta] at h
        simp only [okBind] at h
        obtain ⟨hlt, rfl⟩ := uadd_ok.1 hta
        cases hxf : (match v.token with
          | none =>
            if xfer d = XferResult.success then Except.ok ()
            else Except.error VErr.transferFailed
          | some _ =>
            match xfer d with
            | XferResult.revert => Except.error VErr.revertedTransfer
            | _ => Except.ok ()) with
        | error e => rw [hxf] at h; exact absurd h (by simp)
        | ok u =>
          rw [hxf] at h
          simp only [okBind] at h
          cases hrec : deleteLoop now xfer rest { v with deposits := upd v.deposits d 0 } with
          | error e => rw [hrec] at h; exact absurd h (by simp)
          | ok r =>
            obtain ⟨vf1, pays1⟩ := r
            rw [hrec] at h
            simp only [okBind, Except.ok.injEq, Prod.mk.injEq] at h
            obtain ⟨hvf, hpays⟩ := h
            subst hvf
            exact ⟨i, pays1, fun _ => rfl, fun hc => absurd hmat hc, hlt, rfl, hpays.symm⟩
  · rw [if_neg hmat] at h
    simp only [okBind] at h
    cases hta : uadd (v.deposits d) 0 with
    | error e => rw [hta] at h; exact absurd h (by simp)
    | ok total =>
      rw [hta] at h
      simp only [okBind] at h
      obtain ⟨hlt, rfl⟩ := uadd_ok.1 hta
      cases hxf : (match v.token with
        | none =>
          if xfer d = XferResult.success then Except.ok ()
          else Except.error VErr.transferFailed
        | some _ =>
          match xfer d with
          | XferResult.revert => Except.error VErr.revertedTransfer
          | _ => Except.ok ()) with
      | error e => rw [hxf] at h; exact absurd h (by simp)
      | ok u =>
        rw [hxf] at h
        simp only [okBind] at h
        cases hrec : deleteLoop now xfer rest { v with deposits := upd v.deposits d 0 } with
        | error e => rw [hrec] at h; exact absurd h (by simp)
        | ok r =>
          obtain ⟨vf1, pays1⟩ := r
          rw [hrec] at h
          simp only [okBind, Except.ok.injEq, Prod.mk.injEq] at h
          obtain ⟨hvf, hpays⟩ := h
          subst hvf
          exact ⟨0, pays1, fun hc => absurd hc hmat, fun _ => rfl, hlt, rfl, hpays.symm⟩

theorem deleteLoop_ok_deposits {now : Nat} {xfer : Nat → XferResult}
    (l : List Nat) (v vf : VaultInfo) (pays : List (Nat × Nat))
    (h : deleteLoop now xfer l v = .ok (vf, pays)) :
    ∀ a, vf.deposits a = if a ∈ l then 0 else v.deposits a := by
  induction l generalizing v vf pays with
  | nil =>
    simp only [deleteLoop, Except.ok.injEq, Prod.mk.injEq] at h
    intro a
    rw [← h.1]
    simp
  | cons d rest ih =>
    intro a
    by_cases hz : v.deposits d = 0
    · rw [deleteLoop, if_pos hz] at h
      have := ih _ _ _ h a
      rw [this]
      by_cases ha : a ∈ rest
      · simp [ha]
      · by_cases had : a = d
        · subst had; simp [ha, hz]
        · simp [ha, had]
    · obtain ⟨i, pays1, _, _, _, hrec, _⟩ := deleteLoop_cons_inv h hz
      have := ih _ _ _ hrec a
      rw [this]
      by_cases ha : a ∈ rest
      · simp [ha]
      · by_cases had : a = d
        · subst had; simp [ha, upd_same]
        · simp [ha, had, upd_ne _ _ had]

theorem deleteLoop_ok_pays {now : Nat} {xfer : Nat → XferResult}
    (l : List Nat) (v vf : VaultInfo) (pays : List (Nat × Nat))
    (hnd : l.Nodup) (h : deleteLoop now xfer l v = .ok (vf, pays)) :
    pays = l.filterMap (fun d =>
      if v.deposits d = 0 then none
      else some (d, v.deposits d +
        (if v.creationTime + v.duration ≤ now
         then specInterest (v.deposits d) v.interestRate v.duration else 0))) := by
  induction l generalizing v vf pays with
  | nil =>
    simp only [deleteLoop, Except.ok.injEq, Prod.mk.injEq] at h
    simp [← h.2]
  | cons d rest ih =>
    by_cases hz : v.deposits d = 0
    · rw [deleteLoop, if_pos hz] at h
      have htail := ih _ _ _ (List.nodup_cons.1 hnd).2 h
      rw [htail]
      simp [List.filterMap_cons, hz]
    · obtain ⟨i, pays1, hmi, hni, hlt, hrec, hpays⟩ := deleteLoop_cons_inv h hz
      have hival : i = (if v.creationTime + v.duration ≤ now
          then specInterest (v.deposits d) v.interestRate v.duration else 0) := by
        by_cases hmat : v.creationTime + v.duration ≤ now
        · rw [if_pos hmat]
          exact (interestOf_ok.1 (hmi hmat)).2.2
        · rw [if_neg hmat]
          exact hni hmat
      have hd_rest : d ∉ rest := (List.nodup_cons.1 hnd).1
      have htail := ih _ _ _ (List.nodup_cons.1 hnd).2 hrec
      have hcongr : rest.filterMap (fun d' =>
          if upd v.deposits d 0 d' = 0 then none
          else some (d', upd v.deposits d 0 d' +
            (if v.creationTime + v.duration ≤ now
             then specInterest (upd v.deposits d 0 d') v.interestRate v.duration else 0))) =
          rest.filterMap (fun d' =>
          if v.deposits d' = 0 then none
          else some (d', v.deposits d' +
            (if v.creationTime + v.duration ≤ now
             then specInterest (v.deposits d') v.interestRate v.duration else 0))) := by
        refine List.filterMap_congr fun x hx => ?_
        have hxd : x ≠ d := fun hxe => hd_rest (hxe ▸ hx)
        rw [upd_ne _ _ hxd]
      rw [hpays]
      simp only at htail
      rw [htail, hcongr, hival]
      simp [List.filterMap_cons, hz]

/-! ### List lemmas about depositor-set maintenance -/

theorem firstIndexOf_isSome {a : Nat} {l : List Nat} (hmem : a ∈ l) :
    ∃ j, firstIndexOf a l = some j := by
  induction l with
  | nil => exact absurd hmem (by simp)
  | cons x xs ih =>
    by_cases hx : x = a
    · exact ⟨0, by rw [firstIndexOf, if_pos hx]⟩
    · have hmem' : a ∈ xs := by
        rcases List.mem_cons.1 hmem with h | h
        · exact absurd h.symm hx
        · exact h
      obtain ⟨j, hj⟩ := ih hmem'
      exact ⟨j + 1, by rw [firstIndexOf, if_neg hx, hj]; rfl⟩

theorem removeDepositor_cons_ne {x a : Nat} {xs : List Nat} (hne : ¬ x = a)
    (hmem : a ∈ xs) :
    removeDepositor (x :: xs) a = x :: removeDepositor xs a := by
  obtain ⟨j, hj⟩ := firstIndexOf_isSome hmem
  cases xs with
  | nil => exact absurd hmem (by simp)
  | cons y ys =>
    have hfio : firstIndexOf a (x :: y :: ys) = some (j + 1) := by
      rw [firstIndexOf, if_neg hne, hj]; rfl
    have h1 : removeDepositor (x :: y :: ys) a =
        ((x :: y :: ys).set (j + 1) ((x :: y :: ys).getLast?.getD 0)).dropLast := by
      unfold removeDepositor; rw [hfio]
    have h2 : removeDepositor (y :: ys) a =
        ((y :: ys).set j ((y :: ys).getLast?.getD 0)).dropLast := by
      unfold removeDepositor; rw [hj]
    rw [h1, h2, List.getLast?_cons_cons, List.set_cons_succ]
    exact List.dropLast_cons_of_ne_nil
      (List.ne_nil_of_length_pos (by rw [List.length_set]; simp))

theorem removeDepositor_perm {a : Nat} {l : List Nat} (hmem : a ∈ l) :
    (removeDepositor l a).Perm (l.erase a) := by
  induction l with
  | nil => exact absurd hmem (by simp)
  | cons x xs ih =>
    by_cases hx : x = a
    · subst hx
      rw [List.erase_cons_head]
      have hfio : firstIndexOf x (x :: xs) = some 0 := by
        rw [firstIndexOf, if_pos rfl]
      have hrd : removeDepositor (x :: xs) x =
          ((x :: xs).set 0 ((x :: xs).getLast?.getD 0)).dropLast := by
        unfold removeDepositor; rw [hfio]
      rw [hrd, List.set_cons_zero]
      rcases List.eq_nil_or_concat xs with hnil | ⟨ys, b, hconcat⟩
      · subst hnil
        simp
      · subst hconcat
        have hgl : (x :: ys.concat b).getLast? = some b := by
          rw [List.concat_eq_append, ← List.cons_append, List.getLast?_concat]
        rw [hgl]
        simp only [Option.getD_some]
        rw [List.concat_eq_append,
            List.dropLast_cons_of_ne_nil (by simp), List.dropLast_concat]
        exact (List.perm_append_singleton b ys).symm
    · have hmem' : a ∈ xs := by
        rcases List.mem_cons.1 hmem with h | h
        · exact absurd h.symm hx
        · exact h
      rw [removeDepositor_cons_ne hx hmem',
          List.erase_cons_tail (by simp [hx])]
      exact List.Perm.cons x (ih hmem')

theorem map_upd_not_mem (f : Nat → Nat) (a w : Nat) {l : List Nat} (h : a ∉ l) :
    l.map (upd f a w) = l.map f :=
  List.map_congr_left fun _ hx => upd_ne f w fun he => h (he ▸ hx)

theorem sum_map_upd_add (f : Nat → Nat) {a : Nat} (c : Nat) {l : List Nat}
    (hnd : l.Nodup) (hmem : a ∈ l) :
    (l.map (upd f a (f a + c))).sum = (l.map f).sum + c := by
  induction l with
  | nil => exact absurd hmem (by simp)
  | cons x xs ih =>
    rcases List.mem_cons.1 hmem with rfl | hmem'
    · have hnot : a ∉ xs := (List.nodup_cons.1 hnd).1
      rw [List.map_cons, List.map_cons, upd_same,
          map_upd_not_mem f a _ hnot, List.sum_cons, List.sum_cons]
      omega
    · have hx : x ≠ a := by
        intro he
        subst he
        exact (List.nodup_cons.1 hnd).1 hmem'
      rw [List.map_cons, List.map_cons, upd_ne f _ hx,
          List.sum_cons, List.sum_cons, ih (List.nodup_cons.1 hnd).2 hmem']
      omega

theorem sum_map_erase (f : Nat → Nat) {a : Nat} {l : List Nat} (h : a ∈ l) :
    (l.map f).sum = f a + ((l.erase a).map f).sum := by
  have hp := (List.perm_cons_erase h).map f
  rw [hp.sum_eq, List.map_cons, List.sum_cons]

/-! ### Preservation of the state invariants -/

theorem wf_createVault {nm : String} {token : Option Nat}
    {duration rate now sender admin : Nat} {v : VaultInfo}
    (h : createVault nm token duration rate now sender admin = .ok v) : WF v := by
  obtain ⟨-, -, rfl⟩ := createVault_ok_inv h
  refine ⟨rfl, by simp, fun a => by simp⟩

theorem wf_deposit {v : VaultInfo} {now sender amount msgValue : Nat}
    {xfer : Nat → XferResult} {v' : VaultInfo} {credited : Nat}
    (hwf : WF v) (h : deposit v now sender amount msgValue xfer = .ok (v', credited)) :
    WF v' := by
  obtain ⟨-, -, hpos, -, -, -, rfl⟩ := deposit_ok_inv h
  have hinv1 := hwf.1
  have hnd := hwf.2.1
  have hmem := hwf.2.2
  by_cases hz : v.deposits sender = 0
  · have hnotmem : sender ∉ v.depositors := fun hm => by
      have := (hmem sender).1 hm
      omega
    refine ⟨?_, ?_, ?_⟩
    · show v.totalDeposits + credited = sumDeposits _
      unfold sumDeposits
      simp only [if_pos hz]
      rw [List.map_append, List.sum_append, map_upd_not_mem _ _ _ hnotmem,
          List.map_singleton, List.sum_singleton, upd_same, hz]
      unfold Inv1 sumDeposits at hinv1
      omega
    · show List.Nodup (if v.deposits sender = 0 then _ else _)
      simp only [if_pos hz]
      rw [List.nodup_append]
      exact ⟨hnd, by simp, by simpa using hnotmem⟩
    · intro a
      show a ∈ (if v.deposits sender = 0 then _ else _) ↔ 0 < upd v.deposits sender _ a
      simp only [if_pos hz]
      by_cases ha : a = sender
      · subst ha
        rw [upd_same]
        simp [hz]
        omega
      · rw [upd_ne _ _ ha]
        simp only [List.mem_append, List.mem_singleton, ha, or_false]
        exact hmem a
  · have hsm : sender ∈ v.depositors := (hmem sender).2 (Nat.pos_of_ne_zero hz)
    refine ⟨?_, ?_, ?_⟩
    · show v.totalDeposits + credited = sumDeposits _
      unfold sumDeposits
      simp only [if_neg hz]
      rw [sum_map_upd_add v.deposits credited hnd hsm]
      unfold Inv1 sumDeposits at hinv1
      omega
    · show List.Nodup (if v.deposits sender = 0 then _ else _)
      simp only [if_neg hz]
      exact hnd
    · intro a
      show a ∈ (if v.deposits sender = 0 then _ else _) ↔ 0 < upd v.deposits sender _ a
      simp only [if_neg hz]
      by_cases ha : a = sender
      · subst ha
        rw [upd_same]
        constructor
        · intro _; omega
        · intro _; exact hsm
      · rw [upd_ne _ _ ha]
        exact hmem a

theorem selectWinner_fields {v : VaultInfo} {seed : Nat} {v1 : VaultInfo}
    (h : selectWinner v seed = .ok v1) :
    v1.deposits = v.deposits ∧ v1.depositors = v.depositors ∧
    v1.totalDeposits = v.totalDeposits ∧ v1.active = v.active ∧
    v1.creationTime = v.creationTime ∧ v1.duration = v.duration ∧
    v1.token = v.token ∧ v1.interestRate = v.interestRate ∧
    v1.winnerSelected = true := by
  obtain ⟨-, -, cl, rfl⟩ := selectWinner_ok_inv h
  exact ⟨rfl, rfl, rfl, rfl, rfl, rfl, rfl, rfl, rfl⟩

theorem wf_withdraw {v : VaultInfo} {now sender bal seed : Nat}
    {xfer : Nat → XferResult} {v' : VaultInfo} {paid : Nat}
    (hwf : WF v) (h : withdraw v now sender bal seed xfer = .ok (v', paid)) :
    WF v' := by
  obtain ⟨hact, hdep, v1, hsel, hp, hb, hle, rfl⟩ := withdraw_ok_inv h
  have hstep : WF v1 ∧ v1.deposits = v.deposits := by
    rcases hsel with ⟨-, -, hsw⟩ | ⟨-, rfl⟩
    · obtain ⟨hd, hdl, htd, -⟩ := selectWinner_fields hsw
      refine ⟨⟨?_, ?_, ?_⟩, hd⟩
      · show v1.totalDeposits = sumDeposits v1
        unfold sumDeposits
        rw [htd, hdl, hd]
        exact hwf.1
      · rw [hdl]; exact hwf.2.1
      · intro a; rw [hdl, hd]; exact hwf.2.2 a
    · exact ⟨hwf, rfl⟩
  obtain ⟨hwf1, hdd⟩ := hstep
  have hsnz : 0 < v1.deposits sender := by
    rw [hdd]; exact Nat.pos_of_ne_zero hdep
  have hsm : sender ∈ v1.depositors := (hwf1.2.2 sender).2 hsnz
  have hperm := removeDepositor_perm hsm
  have hnm : sender ∉ v1.depositors.erase sender := fun hm =>
    ((hwf1.2.1.mem_erase_iff).1 hm).1 rfl
  refine ⟨?_, ?_, ?_⟩
  · show v1.totalDeposits - v1.deposits sender = sumDeposits _
    unfold sumDeposits clearEntry
    simp only
    rw [(hperm.map (upd v1.deposits sender 0)).sum_eq,
        map_upd_not_mem _ _ _ hnm]
    have hsum := sum_map_erase v1.deposits hsm
    have hinv1 := hwf1.1
    unfold Inv1 sumDeposits at hinv1
    omega
  · show List.Nodup (removeDepositor v1.depositors sender)
    exact (hperm.nodup_iff).2 (hwf1.2.1.erase sender)
  · intro a
    show a ∈ removeDepositor v1.depositors sender ↔ 0 < upd v1.deposits sender 0 a
    rw [hperm.mem_iff, hwf1.2.1.mem_erase_iff]
    by_cases ha : a = sender
    · subst ha
      rw [upd_same]
      simp
    · rw [upd_ne _ _ ha]
      simp only [ha, ne_eq, not_false_iff, true_and]
      exact hwf1.2.2 a

theorem deleteVault_final {v : VaultInfo} {now sender admin : Nat}
    {xfer : Nat → XferResult} {v' : VaultInfo} {pays : List (Nat × Nat)}
    (hwf : WF v) (h : deleteVault v now sender admin xfer = .ok (v', pays)) :
    v'.totalDeposits = v.totalDeposits ∧ v'.depositors = v.depositors ∧
    (∀ a, v'.deposits a = 0) ∧ v'.active = false := by
  obtain ⟨-, hact, hloop⟩ := deleteVault_ok_inv h
  have hf := deleteLoop_ok_fields _ _ _ _ hloop
  have hd := deleteLoop_ok_deposits _ _ _ _ hloop
  refine ⟨by simpa using hf.2.2.1, by simpa using hf.2.2.2.2.2.2.2.2.2.1, ?_,
          by simpa using hf.2.2.2.2.2.2.1⟩
  intro a
  rw [hd a]
  by_cases ha : a ∈ v.depositors
  · simp [ha]
  · have h0 : v.deposits a = 0 := by
      have hnp : ¬ 0 < v.deposits a := fun hp => ha ((hwf.2.2 a).2 hp)
      omega
    simp [ha, h0]

/-! ### Timestamp invariant along reachable histories -/

theorem map_fst_ok {β : Type} {x : Except VErr (VaultInfo × β)} {v' : VaultInfo}
    (h : x.map Prod.fst = .ok v') : ∃ w, x = .ok (v', w) := by
  cases x with
  | error e => exact absurd h (by simp [Except.map])
  | ok r =>
    obtain ⟨a, b⟩ := r
    simp only [Except.map, Except.ok.injEq] at h
    exact ⟨b, by rw [h]⟩

theorem timeInv_stepV {admin : Nat} {op : Op} {v v' : VaultInfo} {t : Nat}
    (hinv : TimeInv v t) (ht : t ≤ opTime op) (h : stepV admin op v = .ok v') :
    TimeInv v' (opTime op) := by
  cases op with
  | deposit now sender amount msgValue xfer =>
    obtain ⟨w, hd⟩ := map_fst_ok h
    obtain ⟨-, -, -, -, -, -, rfl⟩ := deposit_ok_inv hd
    simp only [opTime] at ht ⊢
    exact ⟨fun hw => le_trans (hinv.1 hw) ht, fun a ha => le_trans (hinv.2 a ha) ht⟩
  | withdraw now sender bal seed xfer =>
    obtain ⟨w, hd⟩ := map_fst_ok h
    obtain ⟨hact, hdep, v1, hsel, hp, hb, hle, rfl⟩ := withdraw_ok_inv hd
    simp only [opTime] at ht ⊢
    rcases hsel with ⟨hmat, hws, hsw⟩ | ⟨hnc, rfl⟩
    · obtain ⟨-, -, -, -, hct, hdur, -⟩ := selectWinner_fields hsw
      constructor
      · intro _
        show v1.creationTime + v1.duration ≤ now
        rw [hct, hdur]
        exact hmat
      · intro a _
        show v1.creationTime + v1.duration ≤ now
        rw [hct, hdur]
        exact hmat
    · constructor
      · intro hw
        exact le_trans (hinv.1 hw) ht
      · intro a ha
        have ha' : upd _ sender 0 a ≠ 0 := ha
        by_cases has : a = sender
        · subst has
          rw [upd_same] at ha'
          exact absurd rfl ha'
        · rw [upd_ne _ _ has] at ha'
          exact le_trans (hinv.2 a ha') ht
  | deleteVault now sender xfer =>
    obtain ⟨w, hd⟩ := map_fst_ok h
    obtain ⟨-, hact, hloop⟩ := deleteVault_ok_inv hd
    have hf := deleteLoop_ok_fields _ _ _ _ hloop
    have hct : v'.creationTime = v.creationTime := by simpa using hf.2.2.2.1
    have hdur : v'.duration = v.duration := by simpa using hf.2.2.2.2.1
    have hws : v'.winnerSelected = v.winnerSelected := by
      simpa using hf.2.2.2.2.2.2.2.1
    have hcl : v'.claimableAmounts = v.claimableAmounts := by
      simpa using hf.2.2.2.2.2.2.2.2.2.2
    simp only [opTime] at ht ⊢
    constructor
    · intro hw
      rw [hct, hdur]
      exact le_trans (hinv.1 (hws ▸ hw)) ht
    · intro a ha
      rw [hct, hdur]
      rw [hcl] at ha
      exact le_trans (hinv.2 a ha) ht

theorem reachable_timeInv {admin : Nat} {v : VaultInfo} {t : Nat}
    (h : Reachable admin v t) : TimeInv v t := by
  induction h with
  | create nm token duration rate now sender v hc =>
    obtain ⟨-, -, rfl⟩ := createVault_ok_inv hc
    exact ⟨fun hw => by simp at hw, fun a ha => absurd rfl ha⟩
  | step v t op v' hr ht hs ih => exact timeInv_stepV ih ht hs

/-! ### Error classification for the interest computation -/

theorem umul_error {x y : Nat} {e : VErr} : umul x y = .error e → e = .overflow := by
  unfold umul; split <;> simp_all

theorem uadd_error {x y : Nat} {e : VErr} : uadd x y = .error e → e = .overflow := by
  unfold uadd; split <;> simp_all

theorem interestOf_error {p r d : Nat} {e : VErr}
    (h : interestOf p r d = .error e) : e = .overflow := by
  unfold interestOf at h
  cases h1 : umul p r with
  | error e1 =>
    rw [h1] at h
    simp only [errBind, Except.error.injEq] at h
    exact h ▸ umul_error h1
  | ok x1 =>
    rw [h1] at h
    simp only [okBind] at h
    cases h2 : umul x1 d with
    | error e2 =>
      rw [h2] at h
      simp only [errBind, Except.error.injEq] at h
      exact h ▸ umul_error h2
    | ok y1 => rw [h2] at h; simp at h

theorem calcInterestLoop_error {v : VaultInfo} {e : VErr} :
    ∀ {l : List Nat} {acc : Nat}, calcInterestLoop v l acc = .error e →
      e = .overflow := by
  intro l
  induction l with
  | nil => intro acc h; simp [calcInterestLoop] at h
  | cons d rest ih =>
    intro acc h
    rw [calcInterestLoop] at h
    cases h1 : interestOf (v.deposits d) v.interestRate v.duration with
    | error e1 =>
      rw [h1] at h
      simp only [errBind, Except.error.injEq] at h
      exact h ▸ interestOf_error h1
    | ok i =>
      rw [h1] at h
      simp only [okBind] at h
      cases h2 : uadd acc i with
      | error e2 =>
        rw [h2] at h
        simp only [errBind, Except.error.injEq] at h
        exact h ▸ uadd_error h2
      | ok acc2 =>
        rw [h2] at h
        simp only [okBind] at h
        exact ih h

theorem calcTotalInterest_error {v : VaultInfo} {e : VErr}
    (h : calcTotalInterest v = .error e) : e = .overflow := by
  unfold calcTotalInterest at h
  exact calcInterestLoop_error h

theorem error_ne {α : Type} {e1 e2 : VErr} (hne : e1 ≠ e2) :
    (Except.error e1 : Except VErr α) ≠ .error e2 := by
  intro hh
  injection hh with hh2
  exact hne hh2

/-! ### Well-formedness of the demo states -/

theorem demoV0_wf : WF demoV0 :=
  ⟨rfl, by simp [demoV0], fun a => by simp [demoV0]⟩

theorem demoV1_wf : WF demoV1 :=
  wf_deposit demoV0_wf
    (show deposit demoV0 1 5 0 100 xfOK = .ok (demoV1, 100) from rfl)

/-! ### Claim theorems -/

/-- C1 (corrected), counterexample: a successful `deleteVault` on a well-formed
reachable state (create, then deposit 100 by address 5, then delete at time 2)
leaves `totalDeposits = 100` while the sum of the depositors' recorded
principals is `0`, so the claimed equality fails after `deleteVault`. -/
theorem c1_counterexample :
    (deleteVault demoV1 2 9 9 xfOK).map
        (fun p => (p.1.totalDeposits, sumDeposits p.1)) = .ok (100, 0) ∧
    (100 : Nat) ≠ 0 :=
  ⟨rfl, by decide⟩

/-- C1 (amended): from a well-formed state, `totalDeposits = Σ deposits[d]`
holds after `createVault`, after every successful `deposit` and after every
successful `withdraw`; a successful `deleteVault`, however, keeps
`totalDeposits` unchanged while zeroing every recorded principal, so the
equality fails afterwards whenever `totalDeposits` was non-zero. -/
theorem c1_totalDeposits_eq_sum :
    (∀ (nm : String) (token : Option Nat) (duration rate now sender admin : Nat)
        (v : VaultInfo), createVault nm token duration rate now sender admin = .ok v →
        v.totalDeposits = sumDeposits v) ∧
    (∀ (v : VaultInfo) (now sender amount msgValue : Nat) (xfer : Nat → XferResult)
        (v' : VaultInfo) (credited : Nat), WF v →
        deposit v now sender amount msgValue xfer = .ok (v', credited) →
        v'.totalDeposits = sumDeposits v') ∧
    (∀ (v : VaultInfo) (now sender bal seed : Nat) (xfer : Nat → XferResult)
        (v' : VaultInfo) (paid : Nat), WF v →
        withdraw v now sender bal seed xfer = .ok (v', paid) →
        v'.totalDeposits = sumDeposits v') ∧
    (∀ (v : VaultInfo) (now sender admin : Nat) (xfer : Nat → XferResult)
        (v' : VaultInfo) (pays : List (Nat × Nat)), WF v →
        deleteVault v now sender admin xfer = .ok (v', pays) →
        v'.totalDeposits = v.totalDeposits ∧ sumDeposits v' = 0) := by
  refine ⟨fun _ _ _ _ _ _ _ _ h => (wf_createVault h).1,
          fun _ _ _ _ _ _ _ _ hwf h => (wf_deposit hwf h).1,
          fun _ _ _ _ _ _ _ _ hwf h => (wf_withdraw hwf h).1,
          fun v _ _ _ _ v' pays hwf h => ?_⟩
  obtain ⟨ht, -, hz, -⟩ := deleteVault_final hwf h
  refine ⟨ht, ?_⟩
  unfold sumDeposits
  refine List.sum_eq_zero fun x hx => ?_
  obtain ⟨a, -, rfl⟩ := List.mem_map.1 hx
  exact hz a

/-- C1 witness: the deposit leg of the invariant theorem applied to the
concrete run `createVault` then `deposit demoV0 1 5 0 100`. -/
theorem c1_witness :
    WF demoV0 ∧ demoV1.totalDeposits = sumDeposits demoV1 :=
  ⟨demoV0_wf,
   c1_totalDeposits_eq_sum.2.1 demoV0 1 5 0 100 xfOK demoV1 100 demoV0_wf
     (show deposit demoV0 1 5 0 100 xfOK = .ok (demoV1, 100) from rfl)⟩

/-- C2 (code bug): with an ERC20 token whose transfer calls return `false`
(failed, but without reverting), `deposit` on a token vault still succeeds
and credits the full amount (its `transferFrom` result is never checked),
and `deleteVault` still succeeds, zeroing the depositor's principal while
the payout transfer reported failure.  Both contradict the required
atomicity of failed transfers. -/
theorem c2_unchecked_erc20_transfer :
    deposit demoTV 1 5 100 0 xfFalse = .ok (demoTV1, 100) ∧
    (deleteVault demoTV1 2 9 9 xfFalse).map
        (fun p => (p.1.deposits 5, p.2)) = .ok (0, [(5, 100)]) :=
  ⟨rfl, rfl⟩

/-- C3 (corrected), counterexample: after a successful `deleteVault` on the
same run as C1, address 5 is still listed in `depositors` although its
recorded principal is `0`. -/
theorem c3_counterexample :
    (deleteVault demoV1 2 9 9 xfOK).map
        (fun p => (p.1.depositors, p.1.deposits 5)) = .ok ([5], 0) := rfl

/-- C3 (amended): from a well-formed state, `depositors` is duplicate-free and
contains exactly the addresses with positive principal after `createVault`,
after every successful `deposit` and after every successful `withdraw`; a
successful `deleteVault`, however, leaves `depositors` unchanged while zeroing
every principal, so every previously listed depositor stays listed with zero
principal. -/
theorem c3_depositors_match_deposits :
    (∀ (nm : String) (token : Option Nat) (duration rate now sender admin : Nat)
        (v : VaultInfo), createVault nm token duration rate now sender admin = .ok v →
        Inv3 v) ∧
    (∀ (v : VaultInfo) (now sender amount msgValue : Nat) (xfer : Nat → XferResult)
        (v' : VaultInfo) (credited : Nat), WF v →
        deposit v now sender amount msgValue xfer = .ok (v', credited) → Inv3 v') ∧
    (∀ (v : VaultInfo) (now sender bal seed : Nat) (xfer : Nat → XferResult)
        (v' : VaultInfo) (paid : Nat), WF v →
        withdraw v now sender bal seed xfer = .ok (v', paid) → Inv3 v') ∧
    (∀ (v : VaultInfo) (now sender admin : Nat) (xfer : Nat → XferResult)
        (v' : VaultInfo) (pays : List (Nat × Nat)), WF v →
        deleteVault v now sender admin xfer = .ok (v', pays) →
        v'.depositors = v.depositors ∧ ∀ a, v'.deposits a = 0) := by
  refine ⟨fun _ _ _ _ _ _ _ _ h => (wf_createVault h).2,
          fun _ _ _ _ _ _ _ _ hwf h => (wf_deposit hwf h).2,
          fun _ _ _ _ _ _ _ _ hwf h => (wf_withdraw hwf h).2,
          fun v _ _ _ _ v' pays hwf h => ?_⟩
  obtain ⟨-, hdl, hz, -⟩ := deleteVault_final hwf h
  exact ⟨hdl, hz⟩

/-- C3 witness: the withdraw leg applied to the concrete run that empties the
demo vault again. -/
theorem c3_witness : WF demoV1 ∧ Inv3 demoV2 :=
  ⟨demoV1_wf,
   c3_depositors_match_deposits.2.2.1 demoV1 2 5 1000 0 xfOK demoV2 100 demoV1_wf
     (show withdraw demoV1 2 5 1000 0 xfOK = .ok (demoV2, 100) from rfl)⟩

/-- C4 (confirmed): once `winnerSelected` is `true`, any further call of
`_selectWinner` fails with the already-selected error, and every successful
mutating operation (`deposit`, `withdraw`, `deleteVault`) preserves both
`winnerSelected = true` and the stored `winner` address. -/
theorem c4_winner_selected_once (v : VaultInfo) (hw : v.winnerSelected = true) :
    (∀ seed : Nat, selectWinner v seed = .error .winnerAlreadySelected) ∧
    (∀ (admin : Nat) (op : Op) (v' : VaultInfo), stepV admin op v = .ok v' →
        v'.winnerSelected = true ∧ v'.winner = v.winner) := by
  constructor
  · intro seed
    unfold selectWinner
    rw [if_pos hw]
  · intro admin op v' h
    cases op with
    | deposit now sender amount msgValue xfer =>
      obtain ⟨w, hd⟩ := map_fst_ok h
      obtain ⟨-, -, -, -, -, -, rfl⟩ := deposit_ok_inv hd
      exact ⟨hw, rfl⟩
    | withdraw now sender bal seed xfer =>
      obtain ⟨w, hd⟩ := map_fst_ok h
      obtain ⟨-, -, v1, hsel, -, -, -, rfl⟩ := withdraw_ok_inv hd
      rcases hsel with ⟨-, hws, -⟩ | ⟨-, rfl⟩
      · rw [hw] at hws
        exact absurd hws (by simp)
      · exact ⟨hw, rfl⟩
    | deleteVault now sender xfer =>
      obtain ⟨w, hd⟩ := map_fst_ok h
      obtain ⟨-, -, hloop⟩ := deleteVault_ok_inv hd
      have hf := deleteLoop_ok_fields _ _ _ _ hloop
      have hws : v'.winnerSelected = v.winnerSelected := by
        simpa using hf.2.2.2.2.2.2.2.1
      have hwin : v'.winner = v.winner := by
        simpa using hf.2.2.2.2.2.2.2.2.1
      exact ⟨hws.trans hw, hwin⟩

/-- C4 witness: on the concrete winner-selected state `vW`, a second selection
fails and a further deposit keeps the winner unchanged. -/
theorem c4_witness :
    vW.winnerSelected = true ∧
    selectWinner vW 0 = .error .winnerAlreadySelected ∧
    vW'.winnerSelected = true ∧ vW'.winner = vW.winner := by
  have h := c4_winner_selected_once vW rfl
  exact ⟨rfl, h.1 0,
    h.2 9 (Op.deposit 1 6 0 50 xfOK) vW'
      (show stepV 9 (Op.deposit 1 6 0 50 xfOK) vW = .ok vW' from rfl)⟩

/-- C5 (confirmed): a successful `deleteVault` on a duplicate-free depositor
list deactivates the vault, issues to every positive-principal depositor one
payment of their principal plus (exactly when the vault has matured) their
simple interest, and afterwards every `deposit` or `withdraw` on the vault
fails with the vault-inactive error. -/
theorem c5_deleteVault_pays_and_deactivates (v : VaultInfo)
    (now sender admin : Nat) (xfer : Nat → XferResult) (v' : VaultInfo)
    (pays : List (Nat × Nat)) (hnd : v.depositors.Nodup)
    (h : deleteVault v now sender admin xfer = .ok (v', pays)) :
    v'.active = false ∧
    pays = v.depositors.filterMap (fun d =>
      if v.deposits d = 0 then none
      else some (d, v.deposits d +
        (if v.creationTime + v.duration ≤ now
         then specInterest (v.deposits d) v.interestRate v.duration else 0))) ∧
    (∀ (now2 s2 amt mv : Nat) (xf : Nat → XferResult),
        deposit v' now2 s2 amt mv xf = .error .vaultInactive) ∧
    (∀ (now2 s2 bal seed : Nat) (xf : Nat → XferResult),
        withdraw v' now2 s2 bal seed xf = .error .vaultInactive) := by
  obtain ⟨-, hact, hloop⟩ := deleteVault_ok_inv h
  have hf := deleteLoop_ok_fields _ _ _ _ hloop
  have hactf : v'.active = false := by simpa using hf.2.2.2.2.2.2.1
  have hpays := deleteLoop_ok_pays _ _ _ _ hnd hloop
  refine ⟨hactf, ?_, ?_, ?_⟩
  · rw [hpays]
  · intro now2 s2 amt mv xf
    unfold deposit
    rw [if_pos hactf]
  · intro now2 s2 bal seed xf
    unfold withdraw
    rw [if_pos hactf]

/-- C5 witness: concrete matured deletion of a one-year vault holding 10^12
wei at 500 bps, paying principal plus 5 percent interest. -/
theorem c5_witness :
    demoBDead.active = false ∧
    ([(5, 1050000000000)] : List (Nat × Nat)) =
      demoBV1.depositors.filterMap (fun d =>
        if demoBV1.deposits d = 0 then none
        else some (d, demoBV1.deposits d +
          (if demoBV1.creationTime + demoBV1.duration ≤ secondsPerYear
           then specInterest (demoBV1.deposits d) demoBV1.interestRate
             demoBV1.duration else 0))) ∧
    deposit demoBDead (secondsPerYear + 1) 7 0 50 xfOK = .error .vaultInactive ∧
    withdraw demoBDead (secondsPerYear + 1) 5 10 0 xfOK = .error .vaultInactive := by
  have h := c5_deleteVault_pays_and_deactivates demoBV1 secondsPerYear 9 9 xfOK
      demoBDead [(5, 1050000000000)] (by simp [demoBV1, demoBV0, demoV0])
      (show deleteVault demoBV1 secondsPerYear 9 9 xfOK
        = .ok (demoBDead, [(5, 1050000000000)]) from rfl)
  exact ⟨h.1, h.2.1, h.2.2.1 _ _ _ _ _, h.2.2.2 _ _ _ _ _⟩

/-- C6 (confirmed): in any state reachable with non-decreasing timestamps, a
successful `withdraw` strictly before maturity pays exactly the caller's
recorded principal (zero interest), whatever other depositors remain. -/
theorem c6_early_withdraw_pays_principal (admin : Nat) (v : VaultInfo) (t : Nat)
    (hr : Reachable admin v t) (now sender bal seed : Nat)
    (xfer : Nat → XferResult) (v' : VaultInfo) (paid : Nat) (ht : t ≤ now)
    (hearly : now < v.creationTime + v.duration)
    (h : withdraw v now sender bal seed xfer = .ok (v', paid)) :
    paid = v.deposits sender := by
  have hinv := reachable_timeInv hr
  obtain ⟨-, -, v1, hsel, hp, -, -, -⟩ := withdraw_ok_inv h
  rcases hsel with ⟨hmat, -, -⟩ | ⟨-, he⟩
  · omega
  · rw [he] at hp
    have hcl : v.claimableAmounts sender = 0 := by
      by_contra hne
      have := hinv.2 sender hne
      omega
    rw [hp]
    unfold claimOf
    rw [if_pos hcl]

/-- C6 witness: on the reachable demo run (create at 0, deposit 100 at 1), an
early withdraw at time 2 pays exactly the 100 wei principal. -/
theorem c6_witness : (100 : Nat) = demoV1.deposits 5 := by
  have hr : Reachable 9 demoV1 1 :=
    Reachable.step demoV0 0 (Op.deposit 1 5 0 100 xfOK) demoV1
      (Reachable.create "demo" none 100 500 0 9 demoV0 rfl) (by decide)
      (show stepV 9 (Op.deposit 1 5 0 100 xfOK) demoV0 = .ok demoV1 from rfl)
  exact c6_early_withdraw_pays_principal 9 demoV1 1 hr 2 5 1000 0 xfOK demoV2 100
    (by decide) (by decide)
    (show withdraw demoV1 2 5 1000 0 xfOK = .ok (demoV2, 100) from rfl)

/-- C7 (confirmed): the per-depositor interest used by the contract equals
floor division `p * r * d / (10000 * secondsPerYear)` whenever the checked
multiplications fit in `uint256`; at 500 bps, one year, principal 1000 it is
exactly 50, and at the boundary rate of 1 bps it floors to 0. -/
theorem c7_interest_formula :
    (∀ p r d : Nat, p * r < UMAX → p * r * d < UMAX →
        interestOf p r d = .ok (specInterest p r d)) ∧
    interestOf 1000 500 secondsPerYear = .ok 50 ∧
    interestOf 1000 1 secondsPerYear = .ok 0 ∧
    specInterest 1000 500 secondsPerYear = 50 ∧
    specInterest 1000 1 secondsPerYear = 0 :=
  ⟨fun _ _ _ h1 h2 => interestOf_ok.2 ⟨h1, h2, rfl⟩, rfl, rfl, rfl, rfl⟩

/-- C7 witness: the floor-division characterization applied at the concrete
500 bps, one-year, principal-1000 instance. -/
theorem c7_witness :
    1000 * 500 < UMAX ∧ 1000 * 500 * secondsPerYear < UMAX ∧
    interestOf 1000 500 secondsPerYear = .ok (specInterest 1000 500 secondsPerYear) :=
  ⟨by decide, by decide,
   c7_interest_formula.1 1000 500 secondsPerYear (by decide) (by decide)⟩

/-- C8 (corrected), counterexample: on an inactive vault with no winner
selected, `getWinnerInfo` fails with the vault-inactive error, not the
not-yet-settled error, refuting "fails with not-yet-settled exactly when
`winnerSelected` is false". -/
theorem c8_counterexample :
    v8.winnerSelected = false ∧ getWinnerInfo v8 = .error .vaultInactive ∧
    ¬ (getWinnerInfo v8 = .error .notYetSettled ↔ v8.winnerSelected = false) := by
  refine ⟨rfl, rfl, fun hiff => ?_⟩
  have h2 := hiff.mpr rfl
  rw [show getWinnerInfo v8 = .error .vaultInactive from rfl] at h2
  exact error_ne (by decide) h2

/-- C8 (amended): `getWinnerInfo` fails with the vault-inactive error exactly
when the vault is inactive; on an active vault it fails with the
not-yet-settled error exactly when `winnerSelected` is false; on an active
vault with a selected winner it returns the winner and the total interest
(propagating only a possible overflow of the interest computation). -/
theorem c8_winner_info_query (v : VaultInfo) :
    (getWinnerInfo v = .error .vaultInactive ↔ v.active = false) ∧
    (v.active = true →
      ((getWinnerInfo v = .error .notYetSettled) ↔ v.winnerSelected = false)) ∧
    (v.active = true → v.winnerSelected = true →
      getWinnerInfo v = (calcTotalInterest v).map (fun ti => (v.winner, ti))) := by
  unfold getWinnerInfo
  by_cases ha : v.active = false
  · rw [if_pos ha]
    refine ⟨by simp [ha], ?_, ?_⟩
    · intro hat
      rw [hat] at ha
      simp at ha
    · intro hat
      rw [hat] at ha
      simp at ha
  · rw [if_neg ha]
    by_cases hw : v.winnerSelected = false
    · rw [if_pos hw]
      refine ⟨iff_of_false (error_ne (by decide)) ha, fun _ => by simp [hw],
              fun _ hws => ?_⟩
      rw [hws] at hw
      simp at hw
    · rw [if_neg hw]
      refine ⟨iff_of_false ?_ ha, fun _ => iff_of_false ?_ hw, fun _ _ => ?_⟩
      · intro hbind
        cases hc : calcTotalInterest v with
        | error e =>
          rw [hc] at hbind
          simp only [errBind, Except.error.injEq] at hbind
          rw [calcTotalInterest_error hc] at hbind
          exact absurd hbind (by decide)
        | ok ti =>
          rw [hc] at hbind
          simp at hbind
      · intro hbind
        cases hc : calcTotalInterest v with
        | error e =>
          rw [hc] at hbind
          simp only [errBind, Except.error.injEq] at hbind
          rw [calcTotalInterest_error hc] at hbind
          exact absurd hbind (by decide)
        | ok ti =>
          rw [hc] at hbind
          simp at hbind
      · cases hc : calcTotalInterest v with
        | error e => rfl
        | ok ti => rfl

/-- C8 witness: on the concrete active, winner-selected state `vW` the query
returns the winner with the total interest. -/
theorem c8_witness :
    vW.active = true ∧ vW.winnerSelected = true ∧
    getWinnerInfo vW = (calcTotalInterest vW).map (fun ti => (vW.winner, ti)) :=
  ⟨rfl, rfl, (c8_winner_info_query vW).2.2 rfl rfl⟩

/-- C9 (confirmed): after one successful `withdraw`, the vault is still active
and the caller's principal is zero, so any second `withdraw` by the same
depositor fails with the no-deposit error. -/
theorem c9_second_withdraw_fails (v : VaultInfo) (now sender bal seed : Nat)
    (xfer : Nat → XferResult) (v' : VaultInfo) (paid : Nat)
    (h : withdraw v now sender bal seed xfer = .ok (v', paid)) :
    ∀ (now2 bal2 seed2 : Nat) (xfer2 : Nat → XferResult),
      withdraw v' now2 sender bal2 seed2 xfer2 = .error .noDeposit := by
  obtain ⟨hact, -, v1, hsel, -, -, -, rfl⟩ := withdraw_ok_inv h
  intro now2 bal2 seed2 xfer2
  have hact1 : v1.active = true := by
    rcases hsel with ⟨-, -, hsw⟩ | ⟨-, rfl⟩
    · exact ((selectWinner_fields hsw).2.2.2.1).trans hact
    · exact hact
  unfold withdraw
  rw [if_neg (show ¬ ((clearEntry v1 sender
        (v1.totalDeposits - v1.deposits sender)).active = false) from by
      show ¬ (v1.active = false)
      rw [hact1]
      simp)]
  rw [if_pos (show (clearEntry v1 sender
        (v1.totalDeposits - v1.deposits sender)).deposits sender = 0 from
      upd_same _ _ _)]

/-- C9 witness: the double withdraw on the concrete demo run; the second call
by address 5 fails with the no-deposit error. -/
theorem c9_witness : withdraw demoV2 3 5 1000 0 xfOK = .error .noDeposit :=
  c9_second_withdraw_fails demoV1 2 5 1000 0 xfOK demoV2 100
    (show withdraw demoV1 2 5 1000 0 xfOK = .ok (demoV2, 100) from rfl)
    3 1000 0 xfOK

/-- C10 (confirmed): on a native-currency vault (`token = address(0)`),
`deposit` is entirely independent of its `_amount` argument, and a successful
deposit credits exactly the attached value to both the caller's principal and
`totalDeposits`. -/
theorem c10_native_deposit_uses_msgValue (v : VaultInfo)
    (now sender amount amount2 msgValue : Nat) (xfer : Nat → XferResult)
    (htok : v.token = none) :
    deposit v now sender amount msgValue xfer
      = deposit v now sender amount2 msgValue xfer ∧
    (∀ (v' : VaultInfo) (credited : Nat),
        deposit v now sender amount msgValue xfer = .ok (v', credited) →
        credited = msgValue ∧
        v'.deposits sender = v.deposits sender + msgValue ∧
        v'.totalDeposits = v.totalDeposits + msgValue) := by
  constructor
  · unfold deposit depositAmountOf
    rw [htok]
  · intro v' credited h
    obtain ⟨-, -, -, hnat, -, -, rfl⟩ := deposit_ok_inv h
    have hc := hnat htok
    subst hc
    exact ⟨rfl, upd_same _ _ _, rfl⟩

/-- C10 witness: deposits of 100 wei with `_amount` arguments 77 and 33 are
literally the same operation on the native demo vault, crediting 100. -/
theorem c10_witness :
    demoV0.token = none ∧
    deposit demoV0 1 5 77 100 xfOK = deposit demoV0 1 5 33 100 xfOK ∧
    demoV1.deposits 5 = demoV0.deposits 5 + 100 := by
  have h := c10_native_deposit_uses_msgValue demoV0 1 5 77 33 100 xfOK rfl
  exact ⟨rfl, h.1, (h.2 demoV1 100
    (show deposit demoV0 1 5 77 100 xfOK = .ok (demoV1, 100) from rfl)).2.1⟩

end VaultSim
